import Mathlib

/-!
Verification of the whitespace codec service: a shallow embedding of the
Go sources under `api/internal` (domain layer: `command.go`, `result.go`,
`decoder.go`, `encoder.go`; app layer: `decoder.go` / `WhitespaceUsecase`),
together with theorems settling the specification's claims about it.

Texts are modelled as `List Char` (Go strings are handled rune-wise by all
the relevant code paths; every input the claims exercise is ASCII, where
byte positions and rune positions coincide).  Fallible Go functions
returning `(T, error)` become `Except Err T`.
-/

deriving instance DecidableEq for Except

namespace WsCodec

/-- Error taxonomy of the service: the sentinel errors of
`domain/errors.go` (`ErrInvalidCommandType`, `ErrTypeMismatch`,
`ErrInvalidPayload`) plus the app layer's `ErrValidationFailed`.
The wrapped human-readable messages are abstracted away; `errors.Is`
identity is what the transport layer and the tests dispatch on. -/
inductive Err where
  | validationFailed
  | invalidCommandType
  | typeMismatch
  | invalidPayload
deriving DecidableEq

/-- Closed enum of conversion directions (`domain` `CommandType`). -/
inductive CommandType where
  | whitespaceToDecimal
  | whitespaceToBinary
  | decimalToWhitespace
  | binariesToWhitespace
deriving DecidableEq

/-- Tag of the `Result` tagged union (`domain` `ResultKind`). -/
inductive ResultKind where
  | whitespace
  | decimalSequence
  | binarySequence
deriving DecidableEq

/-- Whitespace rune classifier used by Go's `strings.TrimSpace` and
`strings.Fields` (`unicode.IsSpace`, Latin-1 range). -/
def isGoSpace (c : Char) : Bool :=
  c = ' ' || c = '\t' || c = '\n' || c = '\x0b' || c = '\x0c' || c = '\r' ||
  c = '\u0085' || c = ' '

/-- Embedding of `strings.TrimSpace`: drop whitespace from both ends. -/
def trimSpace (l : List Char) : List Char :=
  ((l.dropWhile isGoSpace).reverse.dropWhile isGoSpace).reverse

/-- Embedding of `strings.ReplaceAll(s, "\r\n", "\n")`: one left-to-right
pass replacing each non-overlapping CRLF pair. -/
def replaceCRLF : List Char → List Char
  | [] => []
  | [c] => [c]
  | c :: d :: rest =>
    if c = '\r' ∧ d = '\n' then '\n' :: replaceCRLF rest
    else c :: replaceCRLF (d :: rest)

/-- Embedding of `strings.ReplaceAll(s, "\r", "\n")`. -/
def replaceCR (l : List Char) : List Char :=
  l.map fun c => if c = '\r' then '\n' else c

/-- Embedding of `strings.Split(s, "\n")`. -/
def splitLF : List Char → List (List Char)
  | [] => [[]]
  | c :: rest =>
    if c = '\n' then [] :: splitLF rest
    else
      match splitLF rest with
      | [] => [[c]]
      | l :: ls => (c :: l) :: ls

/-- Embedding of `strings.Fields` (accumulator holds the current token
reversed): split on maximal runs of whitespace, no empty tokens. -/
def fieldsAux : List Char → List Char → List (List Char)
  | [], acc => if acc = [] then [] else [acc.reverse]
  | c :: rest, acc =>
    if isGoSpace c then
      if acc = [] then fieldsAux rest []
      else acc.reverse :: fieldsAux rest []
    else fieldsAux rest (c :: acc)

/-- Embedding of `strings.Fields`. -/
def fields (s : List Char) : List (List Char) :=
  fieldsAux s []

/-- Embedding of `strings.Join` with an arbitrary separator. -/
def joinWith (sep : List Char) : List (List Char) → List Char
  | [] => []
  | [x] => x
  | x :: xs => x ++ sep ++ joinWith sep xs

/-- Decimal digit character for a value below ten (`strconv` digit table). -/
def digitChar (n : Nat) : Char :=
  Char.ofNat (48 + n)

/-- Reversed decimal digits of `n`; fuel-indexed so that the recursion is
structural (any fuel above `n` is enough, see `natToDec`). -/
def natToDecAux : Nat → Nat → List Char
  | 0, _ => []
  | fuel + 1, n =>
    if n < 10 then [digitChar n]
    else digitChar (n % 10) :: natToDecAux fuel (n / 10)

/-- Embedding of `strconv.FormatUint(v, 10)` / `strconv.Itoa` for
non-negative values: canonical decimal digits. -/
def natToDec (n : Nat) : List Char :=
  (natToDecAux (n + 1) n).reverse

/-- Reversed binary digits of `n`, fuel-indexed (see `natToBin`). -/
def natToBinAux : Nat → Nat → List Char
  | 0, _ => []
  | fuel + 1, n =>
    if n < 2 then [if n = 1 then '1' else '0']
    else (if n % 2 = 1 then '1' else '0') :: natToBinAux fuel (n / 2)

/-- Embedding of `strconv.FormatUint(v, 2)`: canonical binary digits. -/
def natToBin (n : Nat) : List Char :=
  (natToBinAux (n + 1) n).reverse

/-- Embedding of `fmt.Sprintf("%0*b", w, v)`: binary digits of `v`,
zero-padded on the left to width `w`. -/
def fmtBin (w v : Nat) : List Char :=
  List.replicate (w - (natToBin v).length) '0' ++ natToBin v

/-- Value of a decimal digit string (fold used by `strconv.Atoi`). -/
def decVal (s : List Char) : Nat :=
  s.foldl (fun acc c => 10 * acc + (c.toNat - 48)) 0

/-- Decimal digit test (`'0' <= c && c <= '9'`). -/
def isDecDigit (c : Char) : Bool :=
  48 ≤ c.toNat && c.toNat ≤ 57

/-- Core of `strconv.Atoi` after sign handling: a non-empty all-digit
string parses to its value, anything else is an error. -/
def decVal? (s : List Char) : Option Nat :=
  if s ≠ [] ∧ s.all isDecDigit then some (decVal s) else none

/-- Embedding of `strconv.Atoi`: optional sign followed by digits. -/
def atoi (s : List Char) : Except Err Int :=
  match s with
  | [] => .error .invalidPayload
  | c :: rest =>
    if c = '-' then
      match decVal? rest with
      | some v => .ok (-(v : Int))
      | none => .error .invalidPayload
    else if c = '+' then
      match decVal? rest with
      | some v => .ok (v : Int)
      | none => .error .invalidPayload
    else
      match decVal? s with
      | some v => .ok (v : Int)
      | none => .error .invalidPayload

/-- Value of a binary digit string (the fold inside `strconv.ParseUint`
with base 2). -/
def bitsVal (s : List Char) : Nat :=
  s.foldl (fun acc c => 2 * acc + (if c = '1' then 1 else 0)) 0

/-- Embedding of `strconv.ParseUint(bits, 2, 8)` as used by
`parseWhitespaceSentence`: error on the empty string, on a non-binary
character, or on a value exceeding eight bits. -/
def parseUintBin8 (bits : List Char) : Except Err Nat :=
  if bits = [] then .error .invalidPayload
  else if bits.all (fun c => c = '0' || c = '1') then
    if bitsVal bits < 256 then .ok (bitsVal bits) else .error .invalidPayload
  else .error .invalidPayload

/-- Error-propagating map, the shape of every `for … { if err != nil
{ return …, err } }` loop in the source: first failure wins. -/
def mapE (f : α → Except Err β) : List α → Except Err (List β)
  | [] => .ok []
  | a :: as =>
    match f a with
    | .error e => .error e
    | .ok b => (mapE f as).map (b :: ·)

/-- Hex digit test of `net/url` (`ishex`). -/
def isHexChar (c : Char) : Bool :=
  (48 ≤ c.toNat && c.toNat ≤ 57) || (97 ≤ c.toNat && c.toNat ≤ 102) ||
  (65 ≤ c.toNat && c.toNat ≤ 70)

/-- Hex digit value of `net/url` (`unhex`). -/
def hexVal (c : Char) : Nat :=
  if 48 ≤ c.toNat && c.toNat ≤ 57 then c.toNat - 48
  else if 97 ≤ c.toNat && c.toNat ≤ 102 then c.toNat - 97 + 10
  else c.toNat - 65 + 10

/-- Uppercase hex digit table of `net/url`'s escaper. -/
def upperHexDigit (n : Nat) : Char :=
  if n < 10 then Char.ofNat (48 + n) else Char.ofNat (65 + n - 10)

/-- Escape predicate of `net/url` `shouldEscape` in `encodePathSegment`
mode, which is what `url.PathEscape` uses: alphanumerics, the RFC 3986
unreserved marks, and the reserved characters other than `/ ; , ?` stay
verbatim; everything else (space, tab, newline included) is escaped. -/
def shouldEscapePathSegment (c : Char) : Bool :=
  if (97 ≤ c.toNat && c.toNat ≤ 122) || (65 ≤ c.toNat && c.toNat ≤ 90) ||
     (48 ≤ c.toNat && c.toNat ≤ 57) then false
  else if c = '-' || c = '_' || c = '.' || c = '~' then false
  else if c = '$' || c = '&' || c = '+' || c = ',' || c = '/' || c = ':' ||
          c = ';' || c = '=' || c = '?' || c = '@' then
    c = '/' || c = ';' || c = ',' || c = '?'
  else true

/-- Embedding of `url.PathEscape` for ASCII texts (all texts the encoder
emits are space/tab/newline): `%XX` with uppercase hex. -/
def pathEscape (s : List Char) : List Char :=
  s.flatMap fun c =>
    if shouldEscapePathSegment c then
      ['%', upperHexDigit (c.toNat / 16 % 16), upperHexDigit (c.toNat % 16)]
    else [c]

/-- Embedding of `url.PathUnescape` for ASCII escapes: each `%XX` with two
hex digits becomes the corresponding character, a malformed escape is an
error, every other character passes through. -/
def pathUnescape : List Char → Except Err (List Char)
  | [] => .ok []
  | '%' :: rest =>
    match rest with
    | a :: b :: rest' =>
      if isHexChar a && isHexChar b then
        (pathUnescape rest').map (Char.ofNat (hexVal a * 16 + hexVal b) :: ·)
      else .error .invalidPayload
    | _ => .error .invalidPayload
  | c :: rest => (pathUnescape rest).map (c :: ·)

/-! ### App layer: `api/internal/app/decoder.go` (`WhitespaceUsecase`) -/

namespace App

/-- DTO returned by the usecase (`WhitespaceResult`); Go's nil slices are
the empty list. -/
structure WhitespaceResult where
  commandType : CommandType
  resultKind : ResultKind
  resultDecimals : List (List Char) := []
  resultBinaries : List (List Char) := []
  resultWhitespace : List (List Char) := []
  resultWhitespaceEncoded : List (List Char) := []
deriving DecidableEq

/-- Input of the usecase (`WhitespaceCommand`). -/
structure WhitespaceCommand where
  commandType : String
  payload : List (List Char)

/-- Segment collection loop of `extractSegments`: skip blank lines, require
the literal three-space prefix, keep the remainder of each line. -/
def collectSegments : List (List Char) → Except Err (List (List Char))
  | [] => .ok []
  | line :: rest =>
    if line = [] then collectSegments rest
    else if line.take 3 = [' ', ' ', ' '] then
      (collectSegments rest).map (line.drop 3 :: ·)
    else .error .invalidPayload

/-- Width check of `extractSegments`: rune counts 4, 4, 8. -/
def widthsOk (segments : List (List Char)) : Bool :=
  (segments.zip [4, 4, 8]).all fun p => p.1.length = p.2

/-- Embedding of `extractSegments`: reject the empty sentence, normalize
CR/CRLF to LF, split on LF, collect the three prefixed field segments and
check their widths. -/
def extractSegments (sentence : List Char) : Except Err (List (List Char)) :=
  if sentence = [] then .error .invalidPayload
  else
    match collectSegments (splitLF (replaceCR (replaceCRLF sentence))) with
    | .error e => .error e
    | .ok segments =>
      if segments.length ≠ 3 then .error .invalidPayload
      else if widthsOk segments then .ok segments
      else .error .invalidPayload

/-- Character-to-bit mapping of `parseWhitespaceSentence`'s inner switch:
space is `'0'`, tab is `'1'`, anything else is an error. -/
def wsBit (c : Char) : Except Err Char :=
  if c = ' ' then .ok '0'
  else if c = '\t' then .ok '1'
  else .error .invalidPayload

/-- Parsed form of one sentence (`binarySentence`). -/
structure BinarySentence where
  formatted : List Char
  decimals : List (List Char)
deriving DecidableEq

/-- Per-segment loop of `parseWhitespaceSentence`: map runes to bits,
parse the bit string as an 8-bit-bounded unsigned integer, render its
decimal form. -/
def convertSegments : List (List Char) → Except Err (List (List Char) × List (List Char))
  | [] => .ok ([], [])
  | seg :: rest =>
    match mapE wsBit seg with
    | .error e => .error e
    | .ok bits =>
      match parseUintBin8 bits with
      | .error e => .error e
      | .ok v =>
        (convertSegments rest).map fun p => (bits :: p.1, natToDec v :: p.2)

/-- Embedding of `parseWhitespaceSentence`. -/
def parseWhitespaceSentence (sentence : List Char) : Except Err BinarySentence :=
  match extractSegments sentence with
  | .error e => .error e
  | .ok segments =>
    (convertSegments segments).map fun p => ⟨joinWith [' '] p.1, p.2⟩

/-- Embedding of `whitespaceToBinary`: one formatted bit string per
payload element, wrapped as a `BinarySequence` result. -/
def whitespaceToBinary (payload : List (List Char)) : Except Err WhitespaceResult :=
  (mapE (fun s => (parseWhitespaceSentence s).map (·.formatted)) payload).map
    fun binaries =>
      { commandType := .whitespaceToBinary, resultKind := .binarySequence,
        resultBinaries := binaries }

/-- Embedding of `whitespaceToDecimal`: per element, the three decimal
values joined by single spaces, wrapped as a `DecimalSequence` result. -/
def whitespaceToDecimal (payload : List (List Char)) : Except Err WhitespaceResult :=
  (mapE (fun s => (parseWhitespaceSentence s).map fun p => joinWith [' '] p.decimals)
      payload).map
    fun decimals =>
      { commandType := .whitespaceToDecimal, resultKind := .decimalSequence,
        resultDecimals := decimals }

/-- Per-token step of `decimalStringToBinary`: `strconv.Atoi`, the range
check `value < 0 || value >= 1<<width`, then `%0*b` rendering. -/
def decimalToken (width : Nat) (token : List Char) : Except Err (List Char) :=
  match atoi token with
  | .error e => .error e
  | .ok v =>
    if v < 0 ∨ ((1 <<< width : Nat) : Int) ≤ v then .error .invalidPayload
    else .ok (fmtBin width v.toNat)

/-- Embedding of `decimalStringToBinary`: exactly three whitespace-
separated tokens with widths 4, 4, 8, concatenated to a 16-bit string. -/
def decimalStringToBinary (decimal : List Char) : Except Err (List Char) :=
  match fields decimal with
  | [t1, t2, t3] =>
    match decimalToken 4 t1 with
    | .error e => .error e
    | .ok b1 =>
      match decimalToken 4 t2 with
      | .error e => .error e
      | .ok b2 =>
        match decimalToken 8 t3 with
        | .error e => .error e
        | .ok b3 => .ok (b1 ++ b2 ++ b3)
  | _ => .error .invalidPayload

/-- Embedding of `normalizeBinaryString`: trim, reject blank, strip inner
spaces, require 16 binary characters. -/
def normalizeBinaryString (input : List Char) : Except Err (List Char) :=
  if trimSpace input = [] then .error .invalidPayload
  else
    let clean := (trimSpace input).filter (· ≠ ' ')
    if clean.length ≠ 16 then .error .invalidPayload
    else if clean.all (fun c => c = '0' || c = '1') then .ok clean
    else .error .invalidPayload

/-- Bit-to-character mapping of `bitsToWhitespace`: `'0'` is space, `'1'`
is tab, anything else is an error. -/
def bitWsE (c : Char) : Except Err Char :=
  if c = '0' then .ok ' '
  else if c = '1' then .ok '\t'
  else .error .invalidPayload

/-- One line of the assembled sentence: three-space prefix, the field,
a trailing LF. -/
def sentenceLine (field : List Char) : List Char :=
  ' ' :: ' ' :: ' ' :: (field ++ ['\n'])

/-- Embedding of `bitsToWhitespace`: split the 16-bit string as 4/4/8 and
assemble the three-line sentence. -/
def bitsToWhitespace (bits : List Char) : Except Err (List Char) :=
  if bits.length ≠ 16 then .error .invalidPayload
  else
    match mapE bitWsE (bits.take 4) with
    | .error e => .error e
    | .ok f1 =>
      match mapE bitWsE ((bits.drop 4).take 4) with
      | .error e => .error e
      | .ok f2 =>
        match mapE bitWsE (bits.drop 8) with
        | .error e => .error e
        | .ok f3 => .ok (sentenceLine f1 ++ sentenceLine f2 ++ sentenceLine f3)

/-- Embedding of `decimalToWhitespace`: per element, decimal triple to
bits to whitespace text, paired with its percent-encoded form. -/
def decimalToWhitespace (payload : List (List Char)) : Except Err WhitespaceResult :=
  (mapE (fun decimal =>
      match decimalStringToBinary decimal with
      | .error e => .error e
      | .ok binary =>
        (bitsToWhitespace binary).map fun w => (w, pathEscape w)) payload).map
    fun pairs =>
      { commandType := .decimalToWhitespace, resultKind := .whitespace,
        resultWhitespace := pairs.map (·.1),
        resultWhitespaceEncoded := pairs.map (·.2) }

/-- Embedding of `binaryToWhitespace`: per element, normalized 16-bit
string to whitespace text, paired with its percent-encoded form. -/
def binaryToWhitespace (payload : List (List Char)) : Except Err WhitespaceResult :=
  (mapE (fun binary =>
      match normalizeBinaryString binary with
      | .error e => .error e
      | .ok clean =>
        (bitsToWhitespace clean).map fun w => (w, pathEscape w)) payload).map
    fun pairs =>
      { commandType := .binariesToWhitespace, resultKind := .whitespace,
        resultWhitespace := pairs.map (·.1),
        resultWhitespaceEncoded := pairs.map (·.2) }

end App

/-- Name string of the `WhitespaceToDecimal` direction. -/
def nameWhitespaceToDecimal : String := "WhitespaceToDecimal"

/-- Name string of the `WhitespaceToBinary` direction. -/
def nameWhitespaceToBinary : String := "WhitespaceToBinary"

/-- Name string of the `DecimalToWhitespace` direction. -/
def nameDecimalToWhitespace : String := "DecimalToWhitespace"

/-- Name string of the `BinariesToWhitespace` direction. -/
def nameBinariesToWhitespace : String := "BinariesToWhitespace"

/-- Modelled from the spec: the current four-type `domain` `command.go`
(`ParseCommandType` over the closed set `supportedCommandTypes`) is not
under `src/`; only its test (`TestParseCommandType`, four positive cases
plus `"Unknown"`), its callers, and an older three-type variant are.
Per the spec, parsing succeeds exactly on the four closed enum names and
fails with the unsupported-command-type error otherwise. -/
def ParseCommandType (raw : String) : Except Err CommandType :=
  if raw = nameWhitespaceToDecimal then .ok .whitespaceToDecimal
  else if raw = nameWhitespaceToBinary then .ok .whitespaceToBinary
  else if raw = nameDecimalToWhitespace then .ok .decimalToWhitespace
  else if raw = nameBinariesToWhitespace then .ok .binariesToWhitespace
  else .error .invalidCommandType

namespace App

/-- Embedding of `WhitespaceUsecase.Execute`: blank command type and empty
payload are validation failures (in that order), then the command type is
parsed and the request dispatched to the matching direction. -/
def Execute (command : WhitespaceCommand) : Except Err WhitespaceResult :=
  if trimSpace command.commandType.data = [] then .error .validationFailed
  else if command.payload = [] then .error .validationFailed
  else
    match ParseCommandType command.commandType with
    | .error e => .error e
    | .ok t =>
      match t with
      | .whitespaceToBinary => whitespaceToBinary command.payload
      | .whitespaceToDecimal => whitespaceToDecimal command.payload
      | .decimalToWhitespace => decimalToWhitespace command.payload
      | .binariesToWhitespace => binaryToWhitespace command.payload

end App

/-! ### Domain layer: `api/internal/domain` (`result.go`, `decoder.go`) -/

namespace DomainL

/-- Embedding of the domain `Result` tagged union; Go zero values are the
empty list. -/
structure Result where
  kind : ResultKind
  text : List Char := []
  decimals : List Int := []
  binaries : List (List Char) := []
deriving DecidableEq

/-- Embedding of `NewWhitespaceResult`. -/
def NewWhitespaceResult (text : List Char) : Result :=
  { kind := .whitespace, text := text }

/-- Embedding of `NewDecimalResult` (the stored slice is a private copy;
aliasing is modelled separately by the heap model below). -/
def NewDecimalResult (decimals : List Int) : Result :=
  { kind := .decimalSequence, decimals := decimals }

/-- Embedding of `NewBinarySequenceResult`. -/
def NewBinarySequenceResult (binaries : List (List Char)) : Result :=
  { kind := .binarySequence, binaries := binaries }

/-- Embedding of `Result.Kind`. -/
def Result.Kind (r : Result) : ResultKind :=
  r.kind

/-- Embedding of `Result.Text`: the value with `ok=true` for the matching
kind, the zero value with `ok=false` otherwise. -/
def Result.Text (r : Result) : List Char × Bool :=
  if r.kind ≠ ResultKind.whitespace then ([], false) else (r.text, true)

/-- Embedding of `Result.Decimals`. -/
def Result.Decimals (r : Result) : List Int × Bool :=
  if r.kind ≠ ResultKind.decimalSequence then ([], false) else (r.decimals, true)

/-- Embedding of `Result.Binaries`. -/
def Result.Binaries (r : Result) : List (List Char) × Bool :=
  if r.kind ≠ ResultKind.binarySequence then ([], false) else (r.binaries, true)

/-- Rune table `whitespaceToDecimals` of the domain decoder. -/
def charToDecimal? (c : Char) : Option Int :=
  if c = '\t' then some 9
  else if c = '\n' then some 10
  else if c = ' ' then some 32
  else none

/-- Lookup step of `decodeWhitespaceToDecimal`'s loop: a rune outside the
table is an invalid-payload error. -/
def charDecimalE (c : Char) : Except Err Int :=
  match charToDecimal? c with
  | some v => .ok v
  | none => .error .invalidPayload

/-- Embedding of `decodeWhitespaceToDecimal`: empty payload is rejected,
otherwise each rune maps through the table, in order. -/
def decodeWhitespaceToDecimal (payload : List Char) : Except Err Result :=
  if payload = [] then .error .invalidPayload
  else
    match mapE charDecimalE payload with
    | .error e => .error e
    | .ok decimals => .ok (NewDecimalResult decimals)

/-- Embedding of `bufio.ScanLines`'s `dropCR`: strip one trailing CR. -/
def dropCR (l : List Char) : List Char :=
  if l ≠ [] ∧ l.getLast? = some '\r' then l.dropLast else l

/-- Line scanner of `decodeWhitespaceToBinary` (`bufio.Scanner` with
`ScanLines`): lines split on LF, each with one trailing CR stripped, and
no empty final token after a trailing LF.  Accumulator-based so the
recursion is structural. -/
def scanLinesAux : List Char → List Char → List (List Char)
  | [], acc => [dropCR acc.reverse]
  | '\n' :: rest, acc =>
    dropCR acc.reverse ::
      (match rest with
       | [] => []
       | c :: r => scanLinesAux (c :: r) [])
  | c :: rest, acc => scanLinesAux rest (c :: acc)

/-- Embedding of the scanner loop's token sequence. -/
def scanLines (l : List Char) : List (List Char) :=
  match l with
  | [] => []
  | _ => scanLinesAux l []

/-- Embedding of `convertSentence` (domain variant): one line is one
"sentence" there — three-space prefix then a body of 4 or 8 whitespace
characters, mapped to bits. -/
def convertSentence (line : List Char) : Except Err (List Char) :=
  let trimmed := dropCR line
  if trimmed.length < 3 + 4 then .error .invalidPayload
  else if trimmed.take 3 ≠ [' ', ' ', ' '] then .error .invalidPayload
  else
    let body := trimmed.drop 3
    if body.length ≠ 4 ∧ body.length ≠ 8 then .error .invalidPayload
    else mapE App.wsBit body

/-- Scan-and-convert loop of `decodeWhitespaceToBinary`: the line counter
is checked against the 64 ceiling before each line is converted. -/
def convertLoop : List (List Char) → Nat → Except Err (List (List Char))
  | [], _ => .ok []
  | line :: rest, count =>
    if count + 1 > 64 then .error .invalidPayload
    else
      match convertSentence line with
      | .error e => .error e
      | .ok binary => (convertLoop rest (count + 1)).map (binary :: ·)

/-- Embedding of `decodeWhitespaceToBinary`: percent-decode, scan lines,
convert each with the 64-line ceiling, reject an empty line sequence. -/
def decodeWhitespaceToBinary (payload : List Char) : Except Err Result :=
  if payload = [] then .error .invalidPayload
  else
    match pathUnescape payload with
    | .error _ => .error .invalidPayload
    | .ok decoded =>
      let lines := scanLines decoded
      match convertLoop lines 0 with
      | .error e => .error e
      | .ok binaries =>
        if lines.length = 0 then .error .invalidPayload
        else .ok (NewBinarySequenceResult binaries)

/-- Embedding of `whitespaceDecoder.Execute`: route the two decode
directions, reject the rest with the type-mismatch error. -/
def decoderExecute (t : CommandType) (payload : List Char) : Except Err Result :=
  match t with
  | .whitespaceToDecimal => decodeWhitespaceToDecimal payload
  | .whitespaceToBinary => decodeWhitespaceToBinary payload
  | _ => .error .typeMismatch

end DomainL

/-! ### Slice-aliasing model for the defensive-copy invariant

Go slices are references into mutable backing arrays; the pure `Result`
embedding above cannot express the mutation in the defensive-copy claim.
This small heap model makes the aliasing explicit: a heap is a store of
slice cells addressed by index, `allocCopy` is Go's `make` + `copy`
clone idiom, and a caller mutating a returned slice writes through its
pointer.  `NewDecimalResult`/`NewBinarySequenceResult` clone their input
into a private cell (`newSeqResult`), and `Result.Decimals`/`Binaries`
clone the private cell on every read (`seqAccessor`), exactly as
`result.go` does; `α` is `Int` for decimals and a string type for
binaries. -/

namespace HeapModel

/-- Store of slice cells; a pointer is an index into `cells`. -/
structure Heap (α : Type) where
  cells : List (List α)

/-- Read the slice behind a pointer (out-of-range reads never occur in the
modelled code; they default to the empty slice). -/
def readH (h : Heap α) (p : Nat) : List α :=
  h.cells.getD p []

/-- Go's `make` + `copy` clone: allocate a fresh cell holding a copy of
the given value, returning the new heap and the fresh pointer. -/
def allocCopy (h : Heap α) (v : List α) : Heap α × Nat :=
  (⟨h.cells ++ [v]⟩, h.cells.length)

/-- Mutate one element of the slice behind a pointer, the way a caller
writes `returned[i] = x` through a returned slice header. -/
def writeIndex (h : Heap α) (p i : Nat) (x : α) : Heap α :=
  ⟨h.cells.set p ((h.cells.getD p []).set i x)⟩

/-- Reference form of a sequence-kind `Result`: it owns the pointer to its
private clone. -/
structure SeqResultRef where
  stored : Nat

/-- Heap form of `NewDecimalResult` / `NewBinarySequenceResult`: clone the
caller's slice into a private cell at construction. -/
def newSeqResult (h : Heap α) (input : Nat) : Heap α × SeqResultRef :=
  let hp := allocCopy h (readH h input)
  (hp.1, ⟨hp.2⟩)

/-- Heap form of `Result.Decimals` / `Result.Binaries` for the matching
kind: return a fresh clone of the private cell on every call. -/
def seqAccessor (h : Heap α) (r : SeqResultRef) : Heap α × Nat :=
  allocCopy h (readH h r.stored)

end HeapModel

/-! ### Concrete scenario texts -/

/-- Scenario A sentence: lines `TAB SP TAB TAB`, `SP TAB TAB SP`,
`TAB TAB SP TAB SP SP TAB SP`, each with the three-space prefix and an LF
terminator. -/
def sentenceA : List Char := "   \t \t\t\n    \t\t \n   \t\t \t  \t \n".data

/-- All-spaces sentence of Scenario B (fields of 4, 4, 8 spaces). -/
def sentenceZero : List Char := "       \n       \n           \n".data

/-- Expected `WhitespaceToBinary` output for Scenario A. -/
def binaryA : List Char := "1011 0110 11010010".data

/-- Expected `WhitespaceToDecimal` outputs for Scenario B. -/
def decimalA : List Char := "11 6 210".data

/-- Decimal output of the all-spaces sentence. -/
def decimalZero : List Char := "0 0 0".data

/-- Percent-encoded form of the Scenario A sentence. -/
def encodedA : List Char :=
  "%20%20%20%09%20%09%09%0A%20%20%20%20%09%09%20%0A%20%20%20%09%09%20%09%20%20%09%20%0A".data

/-- Scenario C payload element from the spec. -/
def payload46802 : List Char := "46802".data

/-- One valid line of the domain decoder's grammar (prefix plus four
tabs). -/
def domainLine : List Char := "   \t\t\t\t\n".data

/-- Value form of the bit-to-whitespace mapping (`'0'` to space, `'1'` to
tab), used to state what the encoder's error-free path produces. -/
def bitWs (c : Char) : Char :=
  if c = '0' then ' ' else '\t'

/-- Command-type string of the error scenarios. -/
def nameUnknown : String := "Unknown"

/-- Canonical decimal triple token string `"a b c"`. -/
def decTriple (a b c : Nat) : List Char :=
  natToDec a ++ ' ' :: (natToDec b ++ ' ' :: natToDec c)

/-- Ungrouped 16-bit string of Scenario A (decimal 46802). -/
def binary16 : List Char := "1011011011010010".data

end WsCodec

namespace WsCodec

theorem bitsVal_foldl (l : List Char) (acc : Nat) :
    l.foldl (fun a c => 2 * a + (if c = '1' then 1 else 0)) acc =
      acc * 2 ^ l.length + bitsVal l := by
  induction l generalizing acc with
  | nil => simp [bitsVal]
  | cons c t ih =>
    rw [List.foldl_cons, ih]
    have h2 : bitsVal (c :: t) = (if c = '1' then 1 else 0) * 2 ^ t.length + bitsVal t := by
      show List.foldl _ _ (c :: t) = _
      rw [List.foldl_cons, ih]
      ring_nf
    rw [h2, List.length_cons]
    ring

theorem bitsVal_cons (c : Char) (t : List Char) :
    bitsVal (c :: t) = (if c = '1' then 1 else 0) * 2 ^ t.length + bitsVal t := by
  show List.foldl _ _ (c :: t) = _
  rw [List.foldl_cons, bitsVal_foldl]
  ring_nf

theorem bitsVal_append (a b : List Char) :
    bitsVal (a ++ b) = bitsVal a * 2 ^ b.length + bitsVal b := by
  show List.foldl _ _ (a ++ b) = _
  rw [List.foldl_append, bitsVal_foldl]
  rfl

theorem bitsVal_lt (l : List Char) : bitsVal l < 2 ^ l.length := by
  induction l with
  | nil => simp [bitsVal]
  | cons c t ih =>
    rw [bitsVal_cons]
    have hb : (if c = '1' then 1 else 0) ≤ 1 := by split <;> omega
    have : (2 : Nat) ^ (c :: t).length = 2 * 2 ^ t.length := by
      simp [List.length_cons, pow_succ]; ring
    rw [this]
    nlinarith

theorem bitsVal_replicate_zero (k : Nat) :
    bitsVal (List.replicate k '0') = 0 := by
  induction k with
  | zero => simp [bitsVal]
  | succ n ih =>
    rw [List.replicate_succ, bitsVal_cons, ih]
    simp

theorem decVal_append_one (l : List Char) (c : Char) :
    decVal (l ++ [c]) = 10 * decVal l + (c.toNat - 48) := by
  simp [decVal, List.foldl_append]

theorem digitChar_toNat {d : Nat} (h : d < 10) : (digitChar d).toNat = 48 + d := by
  interval_cases d <;> decide

theorem digitChar_isDigit {d : Nat} (h : d < 10) : isDecDigit (digitChar d) = true := by
  interval_cases d <;> decide

theorem digitChar_not_space {d : Nat} (h : d < 10) : isGoSpace (digitChar d) = false := by
  interval_cases d <;> decide

theorem digitChar_not_sign {d : Nat} (h : d < 10) :
    digitChar d ≠ '-' ∧ digitChar d ≠ '+' := by
  interval_cases d <;> exact ⟨by decide, by decide⟩

theorem natToDecAux_spec :
    ∀ fuel n, n < fuel →
      natToDecAux fuel n ≠ [] ∧
      (∀ c ∈ natToDecAux fuel n, ∃ d, d < 10 ∧ c = digitChar d) ∧
      decVal (natToDecAux fuel n).reverse = n := by
  intro fuel
  induction fuel with
  | zero => intro n h; omega
  | succ f ih =>
    intro n h
    by_cases hn : n < 10
    · refine ⟨by simp [natToDecAux, hn], ?_, ?_⟩
      · intro c hc
        simp [natToDecAux, hn] at hc
        exact ⟨n, hn, hc⟩
      · simp [natToDecAux, hn, decVal, digitChar_toNat hn]
    · have hrec : n / 10 < f := by omega
      obtain ⟨hne, hdig, hval⟩ := ih (n / 10) hrec
      refine ⟨by simp [natToDecAux, hn], ?_, ?_⟩
      · intro c hc
        simp only [natToDecAux, if_neg hn, List.mem_cons] at hc
        rcases hc with hc | hc
        · exact ⟨n % 10, by omega, hc⟩
        · exact hdig c hc
      · simp only [natToDecAux, if_neg hn, List.reverse_cons]
        rw [decVal_append_one, hval, digitChar_toNat (by omega : n % 10 < 10)]
        omega

theorem natToDec_spec (n : Nat) :
    natToDec n ≠ [] ∧
    (∀ c ∈ natToDec n, ∃ d, d < 10 ∧ c = digitChar d) ∧
    decVal (natToDec n) = n := by
  obtain ⟨hne, hdig, hval⟩ := natToDecAux_spec (n + 1) n (by omega)
  refine ⟨?_, ?_, hval⟩
  · show (natToDecAux (n + 1) n).reverse ≠ []
    simpa using hne
  · intro c hc
    exact hdig c (by simpa [natToDec] using hc)

theorem decValQ_natToDec (n : Nat) : decVal? (natToDec n) = some n := by
  obtain ⟨hne, hdig, hval⟩ := natToDec_spec n
  have hall : (natToDec n).all isDecDigit = true := by
    rw [List.all_eq_true]
    intro c hc
    obtain ⟨d, hd, rfl⟩ := hdig c hc
    exact digitChar_isDigit hd
  simp [decVal?, hne, hall, hval]

theorem atoi_natToDec (n : Nat) : atoi (natToDec n) = .ok (n : Int) := by
  obtain ⟨hne, hdig, -⟩ := natToDec_spec n
  obtain ⟨c, rest, hcr⟩ := List.exists_cons_of_ne_nil hne
  obtain ⟨d, hd, hcd⟩ := hdig c (by rw [hcr]; exact List.mem_cons_self c rest)
  obtain ⟨hm, hp⟩ := digitChar_not_sign hd
  have h1 : c ≠ '-' := hcd ▸ hm
  have h2 : c ≠ '+' := hcd ▸ hp
  rw [hcr]
  simp only [atoi, if_neg h1, if_neg h2]
  rw [← hcr, decValQ_natToDec n]

theorem natToBinAux_spec :
    ∀ fuel n, n < fuel →
      natToBinAux fuel n ≠ [] ∧
      (∀ c ∈ natToBinAux fuel n, c = '0' ∨ c = '1') ∧
      bitsVal (natToBinAux fuel n).reverse = n ∧
      ∀ w, 1 ≤ w → n < 2 ^ w → (natToBinAux fuel n).length ≤ w := by
  intro fuel
  induction fuel with
  | zero => intro n h; omega
  | succ f ih =>
    intro n h
    by_cases hn : n < 2
    · refine ⟨by simp [natToBinAux, hn], ?_, ?_, ?_⟩
      · intro c hc
        simp only [natToBinAux, if_pos hn, List.mem_singleton] at hc
        subst hc
        split <;> simp
      · interval_cases n <;> simp [natToBinAux, bitsVal]
      · intro w hw _
        simp [natToBinAux, hn, hw]
    · have hrec : n / 2 < f := by omega
      obtain ⟨hne, hbits, hval, hlen⟩ := ih (n / 2) hrec
      refine ⟨by simp [natToBinAux, hn], ?_, ?_, ?_⟩
      · intro c hc
        simp only [natToBinAux, if_neg hn, List.mem_cons] at hc
        rcases hc with hc | hc
        · subst hc; split <;> simp
        · exact hbits c hc
      · simp only [natToBinAux, if_neg hn, List.reverse_cons]
        rw [bitsVal_append, hval]
        have : bitsVal [if n % 2 = 1 then '1' else '0'] = n % 2 := by
          rcases Nat.mod_two_eq_zero_or_one n with hm | hm <;> simp [hm, bitsVal]
        rw [this]
        simp only [List.length_singleton, pow_one]
        omega
      · intro w hw hnw
        have hw2 : 2 ≤ w := by
          by_contra hlt
          have : w = 1 := by omega
          subst this
          simp at hnw
          omega
        have : n / 2 < 2 ^ (w - 1) := by
          have h2w : 2 ^ w = 2 * 2 ^ (w - 1) := by
            conv_lhs => rw [show w = 1 + (w - 1) by omega]
            rw [pow_add, pow_one]
          omega
        have := hlen (w - 1) (by omega) this
        simp only [natToBinAux, if_neg hn, List.length_cons]
        omega

theorem natToBin_spec (n : Nat) :
    natToBin n ≠ [] ∧
    (∀ c ∈ natToBin n, c = '0' ∨ c = '1') ∧
    bitsVal (natToBin n) = n ∧
    ∀ w, 1 ≤ w → n < 2 ^ w → (natToBin n).length ≤ w := by
  obtain ⟨hne, hbits, hval, hlen⟩ := natToBinAux_spec (n + 1) n (by omega)
  refine ⟨?_, ?_, hval, ?_⟩
  · show (natToBinAux (n + 1) n).reverse ≠ []
    simpa using hne
  · intro c hc
    exact hbits c (by simpa [natToBin] using hc)
  · intro w hw hnw
    show (natToBinAux (n + 1) n).reverse.length ≤ w
    simpa using hlen w hw hnw

theorem fmtBin_length {w v : Nat} (hw : 1 ≤ w) (hv : v < 2 ^ w) :
    (fmtBin w v).length = w := by
  obtain ⟨-, -, -, hlen⟩ := natToBin_spec v
  have := hlen w hw hv
  simp only [fmtBin, List.length_append, List.length_replicate]
  omega

theorem fmtBin_bits {w v : Nat} : ∀ c ∈ fmtBin w v, c = '0' ∨ c = '1' := by
  intro c hc
  simp only [fmtBin, List.mem_append, List.mem_replicate] at hc
  rcases hc with ⟨-, rfl⟩ | hc
  · left; rfl
  · exact (natToBin_spec v).2.1 c hc

theorem bitsVal_fmtBin (w v : Nat) : bitsVal (fmtBin w v) = v := by
  simp only [fmtBin]
  rw [bitsVal_append, bitsVal_replicate_zero, (natToBin_spec v).2.2.1]
  simp

theorem mapE_ok_of_forall {α β : Type} {f : α → Except Err β} {g : α → β} :
    ∀ l : List α, (∀ a ∈ l, f a = .ok (g a)) → mapE f l = .ok (l.map g) := by
  intro l
  induction l with
  | nil => intro _; rfl
  | cons a t ih =>
    intro h
    have ha := h a (List.mem_cons_self a t)
    have ht := ih fun x hx => h x (List.mem_cons_of_mem a hx)
    simp [mapE, ha, ht, Except.map]

theorem mapE_bitWsE_bits (l : List Char) (h : ∀ c ∈ l, c = '0' ∨ c = '1') :
    mapE App.bitWsE l = .ok (l.map bitWs) := by
  refine mapE_ok_of_forall l fun c hc => ?_
  rcases h c hc with rfl | rfl <;> rfl

theorem mapE_wsBit_map_bitWs (l : List Char) (h : ∀ c ∈ l, c = '0' ∨ c = '1') :
    mapE App.wsBit (l.map bitWs) = .ok l := by
  induction l with
  | nil => rfl
  | cons c t ih =>
    have hc : App.wsBit (bitWs c) = .ok c := by
      rcases h c (List.mem_cons_self c t) with rfl | rfl <;> rfl
    have ht := ih fun x hx => h x (List.mem_cons_of_mem c hx)
    simp [mapE, hc, ht, Except.map]

theorem bitWs_not_special (c : Char) (h : c = '0' ∨ c = '1') :
    bitWs c = ' ' ∨ bitWs c = '\t' := by
  rcases h with rfl | rfl
  · left; rfl
  · right; rfl

theorem dropWhile_eq_self_of_forall {p : Char → Bool} {l : List Char}
    (h : ∀ c ∈ l, p c = false) : l.dropWhile p = l := by
  cases l with
  | nil => rfl
  | cons c t => simp [List.dropWhile_cons, h c (List.mem_cons_self c t)]

theorem trimSpace_eq_self {l : List Char} (h : ∀ c ∈ l, isGoSpace c = false) :
    trimSpace l = l := by
  unfold trimSpace
  rw [dropWhile_eq_self_of_forall h,
      dropWhile_eq_self_of_forall fun c hc => h c (List.mem_reverse.mp hc),
      List.reverse_reverse]

theorem replaceCRLF_eq_self {l : List Char} (h : ∀ c ∈ l, c ≠ '\r') :
    replaceCRLF l = l := by
  induction l with
  | nil => rfl
  | cons c t ih =>
    cases t with
    | nil => rfl
    | cons d r =>
      have hc : ¬(c = '\r' ∧ d = '\n') := fun hcd => h c (by simp) hcd.1
      have ht := ih fun x hx => h x (List.mem_cons_of_mem c hx)
      simp only [replaceCRLF, if_neg hc]
      rw [ht]

theorem replaceCR_eq_self {l : List Char} (h : ∀ c ∈ l, c ≠ '\r') :
    replaceCR l = l := by
  unfold replaceCR
  induction l with
  | nil => rfl
  | cons c t ih =>
    rw [List.map_cons, if_neg (h c (List.mem_cons_self c t)),
        ih fun x hx => h x (List.mem_cons_of_mem c hx)]

theorem splitLF_append {a : List Char} (ha : ∀ c ∈ a, c ≠ '\n') (r : List Char) :
    splitLF (a ++ '\n' :: r) = a :: splitLF r := by
  induction a with
  | nil => simp [splitLF]
  | cons c t ih =>
    have hc : c ≠ '\n' := ha c (List.mem_cons_self c t)
    have ht := ih fun x hx => ha x (List.mem_cons_of_mem c hx)
    simp only [List.cons_append, splitLF, if_neg hc, List.append_eq, ht]

theorem fieldsAux_nonws {t : List Char} (h : ∀ c ∈ t, isGoSpace c = false) :
    ∀ l acc, fieldsAux (t ++ l) acc = fieldsAux l (t.reverse ++ acc) := by
  induction t with
  | nil => intro l acc; simp
  | cons c t' ih =>
    intro l acc
    have hc := h c (List.mem_cons_self c t')
    have ht := ih fun x hx => h x (List.mem_cons_of_mem c hx)
    simp only [List.cons_append, fieldsAux, hc, Bool.false_eq_true, if_false,
      List.append_eq, List.nil_append, List.reverse_cons, List.append_assoc,
      List.singleton_append]
    exact ht l (c :: acc)

theorem fields_sep {d : List Char} (hne : d ≠ [])
    (hd : ∀ c ∈ d, isGoSpace c = false) (r : List Char) :
    fieldsAux (d ++ ' ' :: r) [] = d :: fieldsAux r [] := by
  rw [fieldsAux_nonws hd]
  have hrev : d.reverse ++ [] ≠ [] := by simpa using hne
  simp only [fieldsAux, isGoSpace, if_pos rfl]
  simp [hrev, List.reverse_eq_nil_iff, hne]

theorem fields_last {d : List Char} (hne : d ≠ [])
    (hd : ∀ c ∈ d, isGoSpace c = false) :
    fieldsAux d [] = [d] := by
  have := fieldsAux_nonws hd [] []
  rw [List.append_nil] at this
  rw [this]
  simp [fieldsAux, List.reverse_eq_nil_iff, hne]

theorem fields_triple {d1 d2 d3 : List Char}
    (h1 : d1 ≠ []) (h2 : d2 ≠ []) (h3 : d3 ≠ [])
    (n1 : ∀ c ∈ d1, isGoSpace c = false) (n2 : ∀ c ∈ d2, isGoSpace c = false)
    (n3 : ∀ c ∈ d3, isGoSpace c = false) :
    fields (d1 ++ ' ' :: (d2 ++ ' ' :: d3)) = [d1, d2, d3] := by
  unfold fields
  rw [fields_sep h1 n1, fields_sep h2 n2, fields_last h3 n3]

theorem splitLF_line {f : List Char} (hf : ∀ c ∈ f, c ≠ '\n') (r : List Char) :
    splitLF (' ' :: ' ' :: ' ' :: (f ++ '\n' :: r)) =
      (' ' :: ' ' :: ' ' :: f) :: splitLF r := by
  have ha : ∀ c ∈ ' ' :: ' ' :: ' ' :: f, c ≠ '\n' := by
    intro c hc
    rcases List.mem_cons.mp hc with rfl | hc
    · decide
    rcases List.mem_cons.mp hc with rfl | hc
    · decide
    rcases List.mem_cons.mp hc with rfl | hc
    · decide
    · exact hf c hc
  have := splitLF_append ha r
  simpa using this

theorem splitLF_sentence {f1 f2 f3 : List Char}
    (h1 : ∀ c ∈ f1, c ≠ '\n') (h2 : ∀ c ∈ f2, c ≠ '\n') (h3 : ∀ c ∈ f3, c ≠ '\n') :
    splitLF (App.sentenceLine f1 ++ App.sentenceLine f2 ++ App.sentenceLine f3) =
      [' ' :: ' ' :: ' ' :: f1, ' ' :: ' ' :: ' ' :: f2, ' ' :: ' ' :: ' ' :: f3, []] := by
  have hshape :
      App.sentenceLine f1 ++ App.sentenceLine f2 ++ App.sentenceLine f3 =
        ' ' :: ' ' :: ' ' ::
          (f1 ++ '\n' :: (' ' :: ' ' :: ' ' ::
            (f2 ++ '\n' :: (' ' :: ' ' :: ' ' :: (f3 ++ '\n' :: []))))) := by
    simp [App.sentenceLine]
  rw [hshape, splitLF_line h1, splitLF_line h2, splitLF_line h3]
  rfl

theorem collectSegments_three (f1 f2 f3 : List Char) :
    App.collectSegments
        [' ' :: ' ' :: ' ' :: f1, ' ' :: ' ' :: ' ' :: f2, ' ' :: ' ' :: ' ' :: f3, []] =
      .ok [f1, f2, f3] := by
  simp [App.collectSegments, Except.map]

theorem mem_sentenceLine {c : Char} {f : List Char}
    (w : ∀ x ∈ f, x = ' ' ∨ x = '\t') (hc : c ∈ App.sentenceLine f) :
    c = ' ' ∨ c = '\t' ∨ c = '\n' := by
  simp only [App.sentenceLine, List.mem_cons, List.mem_append, List.mem_singleton,
    List.not_mem_nil, or_false] at hc
  rcases hc with rfl | rfl | rfl | hf | rfl
  · exact Or.inl rfl
  · exact Or.inl rfl
  · exact Or.inl rfl
  · rcases w c hf with rfl | rfl
    · exact Or.inl rfl
    · exact Or.inr (Or.inl rfl)
  · exact Or.inr (Or.inr rfl)

theorem extractSegments_sentence {f1 f2 f3 : List Char}
    (w1 : ∀ c ∈ f1, c = ' ' ∨ c = '\t') (w2 : ∀ c ∈ f2, c = ' ' ∨ c = '\t')
    (w3 : ∀ c ∈ f3, c = ' ' ∨ c = '\t')
    (l1 : f1.length = 4) (l2 : f2.length = 4) (l3 : f3.length = 8) :
    App.extractSegments (App.sentenceLine f1 ++ App.sentenceLine f2 ++ App.sentenceLine f3) =
      .ok [f1, f2, f3] := by
  have hmem : ∀ c ∈ App.sentenceLine f1 ++ App.sentenceLine f2 ++ App.sentenceLine f3,
      c = ' ' ∨ c = '\t' ∨ c = '\n' := by
    intro c hc
    rcases List.mem_append.mp hc with hc | hc
    · rcases List.mem_append.mp hc with hc | hc
      · exact mem_sentenceLine w1 hc
      · exact mem_sentenceLine w2 hc
    · exact mem_sentenceLine w3 hc
  have hcr : ∀ c ∈ App.sentenceLine f1 ++ App.sentenceLine f2 ++ App.sentenceLine f3,
      c ≠ '\r' := by
    intro c hc
    rcases hmem c hc with rfl | rfl | rfl <;> decide
  have hne : App.sentenceLine f1 ++ App.sentenceLine f2 ++ App.sentenceLine f3 ≠ [] := by
    simp [App.sentenceLine]
  have hn1 : ∀ c ∈ f1, c ≠ '\n' := by
    intro c hc; rcases w1 c hc with rfl | rfl <;> decide
  have hn2 : ∀ c ∈ f2, c ≠ '\n' := by
    intro c hc; rcases w2 c hc with rfl | rfl <;> decide
  have hn3 : ∀ c ∈ f3, c ≠ '\n' := by
    intro c hc; rcases w3 c hc with rfl | rfl <;> decide
  unfold App.extractSegments
  rw [if_neg hne, replaceCRLF_eq_self hcr, replaceCR_eq_self hcr,
      splitLF_sentence hn1 hn2 hn3, collectSegments_three]
  simp [App.widthsOk, l1, l2, l3]

theorem parseUintBin8_ok {l : List Char} (hne : l ≠ [])
    (hb : ∀ c ∈ l, c = '0' ∨ c = '1') (hlen : l.length ≤ 8) :
    parseUintBin8 l = .ok (bitsVal l) := by
  have hall : l.all (fun c => c = '0' || c = '1') = true := by
    rw [List.all_eq_true]
    intro c hc
    rcases hb c hc with rfl | rfl <;> simp
  have hlt : bitsVal l < 256 := by
    calc bitsVal l < 2 ^ l.length := bitsVal_lt l
    _ ≤ 2 ^ 8 := Nat.pow_le_pow_right (by norm_num) hlen
    _ = 256 := by norm_num
  simp [parseUintBin8, hne, hall, hlt]

theorem convertSegments_cons {seg : List Char} {rest : List (List Char)} {b : List Char}
    (hm : mapE App.wsBit seg = .ok b) (hp : parseUintBin8 b = .ok (bitsVal b)) :
    App.convertSegments (seg :: rest) =
      (App.convertSegments rest).map fun p => (b :: p.1, natToDec (bitsVal b) :: p.2) := by
  simp [App.convertSegments, hm, hp]

theorem joinWith_three (a b c : List Char) :
    joinWith [' '] [a, b, c] = a ++ ' ' :: (b ++ ' ' :: c) := by
  simp [joinWith]

theorem parseWhitespaceSentence_rt {b1 b2 b3 : List Char}
    (h1 : ∀ c ∈ b1, c = '0' ∨ c = '1') (h2 : ∀ c ∈ b2, c = '0' ∨ c = '1')
    (h3 : ∀ c ∈ b3, c = '0' ∨ c = '1')
    (l1 : b1.length = 4) (l2 : b2.length = 4) (l3 : b3.length = 8) :
    App.parseWhitespaceSentence
        (App.sentenceLine (b1.map bitWs) ++ App.sentenceLine (b2.map bitWs) ++
          App.sentenceLine (b3.map bitWs)) =
      .ok ⟨b1 ++ ' ' :: (b2 ++ ' ' :: b3),
           [natToDec (bitsVal b1), natToDec (bitsVal b2), natToDec (bitsVal b3)]⟩ := by
  have hw : ∀ (b : List Char), (∀ c ∈ b, c = '0' ∨ c = '1') →
      ∀ c ∈ b.map bitWs, c = ' ' ∨ c = '\t' := by
    intro b hb c hc
    obtain ⟨x, hx, rfl⟩ := List.mem_map.mp hc
    exact bitWs_not_special x (hb x hx)
  have hne1 : b1 ≠ [] := by intro h; subst h; simp at l1
  have hne2 : b2 ≠ [] := by intro h; subst h; simp at l2
  have hne3 : b3 ≠ [] := by intro h; subst h; simp at l3
  unfold App.parseWhitespaceSentence
  rw [extractSegments_sentence (hw b1 h1) (hw b2 h2) (hw b3 h3)
        (by simp [l1]) (by simp [l2]) (by simp [l3])]
  show Except.map (fun p => ({ formatted := joinWith [' '] p.1, decimals := p.2 } :
      App.BinarySentence))
    (App.convertSegments [b1.map bitWs, b2.map bitWs, b3.map bitWs]) = _
  rw [convertSegments_cons (mapE_wsBit_map_bitWs b1 h1)
        (parseUintBin8_ok hne1 h1 (by omega)),
      convertSegments_cons (mapE_wsBit_map_bitWs b2 h2)
        (parseUintBin8_ok hne2 h2 (by omega)),
      convertSegments_cons (mapE_wsBit_map_bitWs b3 h3)
        (parseUintBin8_ok hne3 h3 (by omega))]
  simp [App.convertSegments, Except.map, joinWith_three]

theorem bitsToWhitespace_ok {bits : List Char} (hlen : bits.length = 16)
    (hb : ∀ c ∈ bits, c = '0' ∨ c = '1') :
    App.bitsToWhitespace bits =
      .ok (App.sentenceLine ((bits.take 4).map bitWs) ++
           App.sentenceLine (((bits.drop 4).take 4).map bitWs) ++
           App.sentenceLine ((bits.drop 8).map bitWs)) := by
  have h1 := mapE_bitWsE_bits (bits.take 4) fun c hc => hb c (List.mem_of_mem_take hc)
  have h2 := mapE_bitWsE_bits ((bits.drop 4).take 4) fun c hc =>
    hb c (List.mem_of_mem_drop (List.mem_of_mem_take hc))
  have h3 := mapE_bitWsE_bits (bits.drop 8) fun c hc => hb c (List.mem_of_mem_drop hc)
  simp [App.bitsToWhitespace, hlen, h1, h2, h3, Except.map]

theorem normalizeBinaryString_ok {b : List Char} (hlen : b.length = 16)
    (hb : ∀ c ∈ b, c = '0' ∨ c = '1') :
    App.normalizeBinaryString b = .ok b := by
  have hns : ∀ c ∈ b, isGoSpace c = false := by
    intro c hc; rcases hb c hc with rfl | rfl <;> rfl
  have ht : trimSpace b = b := trimSpace_eq_self hns
  have hne : b ≠ [] := by intro h; subst h; simp at hlen
  have hf : List.filter (fun x => decide (x ≠ ' ')) b = b := by
    rw [List.filter_eq_self]
    intro c hc; rcases hb c hc with rfl | rfl <;> decide
  have hall : (b.all fun c => decide (c = '0') || decide (c = '1')) = true := by
    rw [List.all_eq_true]
    intro c hc
    rcases hb c hc with rfl | rfl <;> simp
  simp only [App.normalizeBinaryString, ht]
  rw [if_neg hne, hf, if_neg (by simp [hlen] : ¬b.length ≠ 16), if_pos hall]

theorem mapE_singleton {α β : Type} (f : α → Except Err β) (a : α) {b : β}
    (h : f a = .ok b) : mapE f [a] = .ok [b] := by
  simp [mapE, h, Except.map]

theorem roundtrip_binary {b : List Char} (hlen : b.length = 16)
    (hb : ∀ c ∈ b, c = '0' ∨ c = '1') :
    (App.binaryToWhitespace [b]).bind
        (fun r => App.whitespaceToBinary r.resultWhitespace) =
      .ok { commandType := .whitespaceToBinary, resultKind := .binarySequence,
            resultBinaries :=
              [b.take 4 ++ ' ' :: ((b.drop 4).take 4 ++ ' ' :: b.drop 8)] } := by
  have t1 : (b.take 4).length = 4 := by simp [hlen]
  have t2 : ((b.drop 4).take 4).length = 4 := by simp [hlen]
  have t3 : (b.drop 8).length = 8 := by simp [hlen]
  have hnorm := normalizeBinaryString_ok hlen hb
  have hws := bitsToWhitespace_ok hlen hb
  have hp := parseWhitespaceSentence_rt
    (fun c hc => hb c (List.mem_of_mem_take hc))
    (fun c hc => hb c (List.mem_of_mem_drop (List.mem_of_mem_take hc)))
    (fun c hc => hb c (List.mem_of_mem_drop hc)) t1 t2 t3
  simp only [App.binaryToWhitespace, mapE, hnorm, hws, Except.map, Except.bind,
    App.whitespaceToBinary, hp]

theorem roundtrip_decimal {a b c : Nat} (ha : a < 16) (hb : b < 16) (hc : c < 256) :
    (App.decimalToWhitespace [decTriple a b c]).bind
        (fun r => App.whitespaceToDecimal r.resultWhitespace) =
      .ok { commandType := .whitespaceToDecimal, resultKind := .decimalSequence,
            resultDecimals := [decTriple a b c] } := by
  obtain ⟨hna, -, -⟩ := natToDec_spec a
  obtain ⟨hnb, -, -⟩ := natToDec_spec b
  obtain ⟨hnc, -, -⟩ := natToDec_spec c
  have hws : ∀ n : Nat, ∀ x ∈ natToDec n, isGoSpace x = false := by
    intro n x hx
    obtain ⟨d, hd, rfl⟩ := (natToDec_spec n).2.1 x hx
    exact digitChar_not_space hd
  have hfields : fields (decTriple a b c) = [natToDec a, natToDec b, natToDec c] :=
    fields_triple hna hnb hnc (hws a) (hws b) (hws c)
  have htok : ∀ (w n : Nat), 1 ≤ w → n < 2 ^ w →
      App.decimalToken w (natToDec n) = .ok (fmtBin w n) := by
    intro w n hw hn
    have hsw : (1 <<< w : Nat) = 2 ^ w := by rw [Nat.shiftLeft_eq, one_mul]
    have hrange : ¬((n : Int) < 0 ∨ ((1 <<< w : Nat) : Int) ≤ (n : Int)) := by
      push_neg
      refine ⟨by positivity, ?_⟩
      rw [hsw]
      exact_mod_cast hn
    unfold App.decimalToken
    simp only [atoi_natToDec]
    rw [if_neg hrange]
    simp
  have hd2b : App.decimalStringToBinary (decTriple a b c) =
      .ok (fmtBin 4 a ++ fmtBin 4 b ++ fmtBin 8 c) := by
    unfold App.decimalStringToBinary
    rw [hfields]
    simp only [htok 4 a (by norm_num) (by simpa using ha),
      htok 4 b (by norm_num) (by simpa using hb),
      htok 8 c (by norm_num) (by simpa using hc)]
  have la : (fmtBin 4 a).length = 4 := fmtBin_length (by norm_num) (by simpa using ha)
  have lb : (fmtBin 4 b).length = 4 := fmtBin_length (by norm_num) (by simpa using hb)
  have lc : (fmtBin 8 c).length = 8 := fmtBin_length (by norm_num) (by simpa using hc)
  have hlen16 : (fmtBin 4 a ++ fmtBin 4 b ++ fmtBin 8 c).length = 16 := by
    simp [la, lb, lc]
  have hbits : ∀ x ∈ fmtBin 4 a ++ fmtBin 4 b ++ fmtBin 8 c, x = '0' ∨ x = '1' := by
    intro x hx
    rcases List.mem_append.mp hx with hx | hx
    · rcases List.mem_append.mp hx with hx | hx
      · exact fmtBin_bits x hx
      · exact fmtBin_bits x hx
    · exact fmtBin_bits x hx
  have hseg1 : (fmtBin 4 a ++ fmtBin 4 b ++ fmtBin 8 c).take 4 = fmtBin 4 a := by
    rw [List.append_assoc]
    exact List.take_left' la
  have hseg2 : ((fmtBin 4 a ++ fmtBin 4 b ++ fmtBin 8 c).drop 4).take 4 = fmtBin 4 b := by
    rw [List.append_assoc, List.drop_left' la]
    exact List.take_left' lb
  have hseg3 : (fmtBin 4 a ++ fmtBin 4 b ++ fmtBin 8 c).drop 8 = fmtBin 8 c :=
    List.drop_left' (by simp [la, lb])
  have hw := bitsToWhitespace_ok hlen16 hbits
  rw [hseg1, hseg2, hseg3] at hw
  have hp := parseWhitespaceSentence_rt
    (fun x hx => fmtBin_bits x hx) (fun x hx => fmtBin_bits x hx)
    (fun x hx => fmtBin_bits x hx) la lb lc
  simp only [App.decimalToWhitespace, mapE, hd2b, hw, Except.map, Except.bind,
    App.whitespaceToDecimal, hp]
  simp only [List.map_cons, List.map_nil, joinWith_three, bitsVal_fmtBin]
  rfl

theorem charToDecimalQ_eq_none {c : Char} :
    DomainL.charToDecimal? c = none ↔ ¬(c = ' ' ∨ c = '\t' ∨ c = '\n') := by
  unfold DomainL.charToDecimal?
  split_ifs with h1 h2 h3 <;> simp_all

theorem mapE_charDecimalE_ok {l : List Char}
    (h : ∀ c ∈ l, c = ' ' ∨ c = '\t' ∨ c = '\n') :
    mapE DomainL.charDecimalE l =
      .ok (l.map fun c => (DomainL.charToDecimal? c).getD 0) := by
  refine mapE_ok_of_forall l fun c hc => ?_
  rcases h c hc with rfl | rfl | rfl <;> rfl

theorem mapE_charDecimalE_error {l : List Char}
    (h : ∃ c ∈ l, DomainL.charToDecimal? c = none) :
    mapE DomainL.charDecimalE l = .error .invalidPayload := by
  induction l with
  | nil => simp at h
  | cons c t ih =>
    obtain ⟨x, hx, hnone⟩ := h
    rcases List.mem_cons.mp hx with rfl | hx
    · simp [mapE, DomainL.charDecimalE, hnone]
    · cases hc : DomainL.charToDecimal? c with
      | none => simp [mapE, DomainL.charDecimalE, hc]
      | some v =>
        have ht := ih ⟨x, hx, hnone⟩
        simp [mapE, DomainL.charDecimalE, hc, ht, Except.map]

theorem readH_allocCopy_self {α : Type} (h : HeapModel.Heap α) (v : List α) :
    HeapModel.readH (HeapModel.allocCopy h v).1 (HeapModel.allocCopy h v).2 = v := by
  simp only [HeapModel.readH, HeapModel.allocCopy, List.getD_eq_getElem?_getD]
  rw [List.getElem?_append_right (Nat.le_refl _)]
  simp

theorem readH_allocCopy_lt {α : Type} (h : HeapModel.Heap α) (v : List α) {p : Nat}
    (hp : p < h.cells.length) :
    HeapModel.readH (HeapModel.allocCopy h v).1 p = HeapModel.readH h p := by
  simp only [HeapModel.readH, HeapModel.allocCopy, List.getD_eq_getElem?_getD]
  rw [List.getElem?_append_left hp]

theorem readH_writeIndex_ne {α : Type} (h : HeapModel.Heap α) {p q : Nat}
    (i : Nat) (x : α) (hpq : q ≠ p) :
    HeapModel.readH (HeapModel.writeIndex h q i x) p = HeapModel.readH h p := by
  simp only [HeapModel.readH, HeapModel.writeIndex, List.getD_eq_getElem?_getD]
  rw [List.getElem?_set_ne hpq]

set_option maxRecDepth 100000

/-- C1: executing the `WhitespaceToBinary` direction on the single
Scenario A sentence succeeds and returns a `BinarySequence` result whose
sole element is `"1011 0110 11010010"`. -/
theorem c1_whitespaceToBinary_sentenceA :
    App.whitespaceToBinary [sentenceA] =
      .ok { commandType := .whitespaceToBinary, resultKind := .binarySequence,
            resultBinaries := [binaryA] } := by
  decide

/-- C2: round-trip — for every 16-character bit string `b`,
`BinariesToWhitespace` then `WhitespaceToBinary` returns `b` regrouped as
its first 4, next 4, and last 8 characters joined by single spaces; and
for every in-range triple written as canonical decimal tokens,
`DecimalToWhitespace` then `WhitespaceToDecimal` returns the original
token string. -/
theorem c2_roundtrip :
    (∀ b : List Char, b.length = 16 → (∀ c ∈ b, c = '0' ∨ c = '1') →
      (App.binaryToWhitespace [b]).bind
          (fun r => App.whitespaceToBinary r.resultWhitespace) =
        .ok { commandType := .whitespaceToBinary, resultKind := .binarySequence,
              resultBinaries :=
                [b.take 4 ++ ' ' :: ((b.drop 4).take 4 ++ ' ' :: b.drop 8)] }) ∧
    (∀ a b c : Nat, a < 16 → b < 16 → c < 256 →
      (App.decimalToWhitespace [decTriple a b c]).bind
          (fun r => App.whitespaceToDecimal r.resultWhitespace) =
        .ok { commandType := .whitespaceToDecimal, resultKind := .decimalSequence,
              resultDecimals := [decTriple a b c] }) :=
  ⟨fun _ hl hb => roundtrip_binary hl hb,
   fun _ _ _ ha hb hc => roundtrip_decimal ha hb hc⟩

/-- Witness for C2 at the Scenario A values, 16-bit string
`1011011011010010` and triple `(11, 6, 210)`. -/
theorem c2_roundtrip_witness :
    ((binary16.length = 16 ∧ (∀ c ∈ binary16, c = '0' ∨ c = '1')) ∧
      (App.binaryToWhitespace [binary16]).bind
          (fun r => App.whitespaceToBinary r.resultWhitespace) =
        .ok { commandType := .whitespaceToBinary, resultKind := .binarySequence,
              resultBinaries := [binaryA] }) ∧
    ((11 < 16 ∧ 6 < 16 ∧ 210 < 256) ∧
      (App.decimalToWhitespace [decTriple 11 6 210]).bind
          (fun r => App.whitespaceToDecimal r.resultWhitespace) =
        .ok { commandType := .whitespaceToDecimal, resultKind := .decimalSequence,
              resultDecimals := [decTriple 11 6 210] }) := by
  constructor
  · refine ⟨⟨by decide, by decide⟩, ?_⟩
    exact (c2_roundtrip.1 binary16 (by decide) (by decide)).trans (by decide)
  · exact ⟨⟨by decide, by decide, by decide⟩,
      c2_roundtrip.2 11 6 210 (by decide) (by decide) (by decide)⟩

/-- C3 counterexample: the single payload element `"46802"` under
`DecimalToWhitespace` does not succeed — `decimalStringToBinary` requires
exactly three whitespace-separated tokens, so the request fails with
`InvalidPayload` instead of returning the Scenario A whitespace text. -/
theorem c3_counterexample_46802 :
    App.decimalToWhitespace [payload46802] = .error .invalidPayload := by
  decide

/-- C3 amended: the Scenario A sentence is produced from the three-token
decimal payload `"11 6 210"` (the spec's own encoder contract requires
exactly three in-range tokens): `DecimalToWhitespace` on it returns the
Scenario A text and its percent-encoded form, escaping space, tab, and
newline. -/
theorem c3_decimalToWhitespace_amended :
    App.decimalToWhitespace [decimalA] =
      .ok { commandType := .decimalToWhitespace, resultKind := .whitespace,
            resultWhitespace := [sentenceA],
            resultWhitespaceEncoded := [encodedA] } := by
  decide

/-- C4: parsing a command-type string succeeds exactly on the four closed
enum names, with the matching `CommandType`, and fails with the
invalid-command-type error on every other string. -/
theorem c4_parseCommandType_closed_enum :
    ParseCommandType nameWhitespaceToDecimal = .ok .whitespaceToDecimal ∧
    ParseCommandType nameWhitespaceToBinary = .ok .whitespaceToBinary ∧
    ParseCommandType nameDecimalToWhitespace = .ok .decimalToWhitespace ∧
    ParseCommandType nameBinariesToWhitespace = .ok .binariesToWhitespace ∧
    ∀ s : String, s ≠ nameWhitespaceToDecimal → s ≠ nameWhitespaceToBinary →
      s ≠ nameDecimalToWhitespace → s ≠ nameBinariesToWhitespace →
      ParseCommandType s = .error .invalidCommandType := by
  refine ⟨by decide, by decide, by decide, by decide, ?_⟩
  intro s h1 h2 h3 h4
  simp only [ParseCommandType, if_neg h1, if_neg h2, if_neg h3, if_neg h4]

/-- Witness for C4 at the concrete unsupported string `"Unknown"`. -/
theorem c4_parseCommandType_closed_enum_witness :
    ParseCommandType nameUnknown = .error .invalidCommandType :=
  c4_parseCommandType_closed_enum.2.2.2.2 nameUnknown
    (by decide) (by decide) (by decide) (by decide)

/-- C5 counterexample: a payload of 65 valid sentences, one per payload
element, does not fail — the usecase's `whitespaceToBinary` imposes no
sentence-count ceiling and converts all 65. -/
theorem c5_counterexample_sentence_count :
    App.whitespaceToBinary (List.replicate 65 sentenceA) ≠
        .error .invalidPayload ∧
    (App.whitespaceToBinary (List.replicate 65 sentenceA)).isOk = true := by
  constructor
  · decide
  · decide

/-- C5 amended: the usecase decode path enforces no sentence ceiling (65
valid sentences succeed), while the domain-layer `decodeWhitespaceToBinary`
enforces its 64 ceiling on lines (one 4- or 8-character field each): 64
valid lines succeed and 65 fail with `InvalidPayload`. -/
theorem c5_sentence_count_amended :
    (App.whitespaceToBinary (List.replicate 65 sentenceA)).isOk = true ∧
    (DomainL.decodeWhitespaceToBinary
        (List.replicate 64 domainLine).flatten).isOk = true ∧
    DomainL.decodeWhitespaceToBinary (List.replicate 65 domainLine).flatten =
      .error .invalidPayload := by
  refine ⟨by decide, by decide, by decide⟩

/-- C6: `WhitespaceToDecimal` on the two-element payload of Scenario B
returns the `DecimalSequence` `["11 6 210", "0 0 0"]`, in payload order. -/
theorem c6_whitespaceToDecimal_scenarioB :
    App.whitespaceToDecimal [sentenceA, sentenceZero] =
      .ok { commandType := .whitespaceToDecimal, resultKind := .decimalSequence,
            resultDecimals := [decimalA, decimalZero] } := by
  decide

/-- C7 counterexample: with the empty payload, the `"Unknown"` command
type is not reported — `Execute` fails with `ValidationFailed` (the
payload check precedes command-type parsing), not `InvalidCommandType`. -/
theorem c7_counterexample_empty_payload :
    App.Execute { commandType := nameUnknown, payload := [] } =
        .error .validationFailed ∧
    App.Execute { commandType := nameUnknown, payload := [] } ≠
      .error .invalidCommandType := by
  constructor
  · decide
  · decide

/-- C7 amended: for every non-empty payload, executing a request with
command-type string `"Unknown"` fails with `InvalidCommandType`. -/
theorem c7_unknown_command_amended (p : List (List Char)) (hp : p ≠ []) :
    App.Execute { commandType := nameUnknown, payload := p } =
      .error .invalidCommandType := by
  simp only [App.Execute]
  rw [if_neg (by decide : ¬(trimSpace nameUnknown.data = [])), if_neg hp,
      (by decide : ParseCommandType nameUnknown = .error .invalidCommandType)]

/-- Witness for C7 at a concrete one-element payload. -/
theorem c7_unknown_command_amended_witness :
    App.Execute { commandType := nameUnknown, payload := [sentenceA] } =
      .error .invalidCommandType :=
  c7_unknown_command_amended [sentenceA] (by decide)

/-- C8: kind exclusivity — for each constructor, exactly the accessor
matching the result's kind returns its value with `ok = true`, and the
other two return the zero value with `ok = false`. -/
theorem c8_result_kind_exclusivity :
    ∀ (t : List Char) (ds : List Int) (bs : List (List Char)),
      ((DomainL.NewWhitespaceResult t).Kind = .whitespace ∧
        (DomainL.NewWhitespaceResult t).Text = (t, true) ∧
        (DomainL.NewWhitespaceResult t).Decimals = ([], false) ∧
        (DomainL.NewWhitespaceResult t).Binaries = ([], false)) ∧
      ((DomainL.NewDecimalResult ds).Kind = .decimalSequence ∧
        (DomainL.NewDecimalResult ds).Decimals = (ds, true) ∧
        (DomainL.NewDecimalResult ds).Text = ([], false) ∧
        (DomainL.NewDecimalResult ds).Binaries = ([], false)) ∧
      ((DomainL.NewBinarySequenceResult bs).Kind = .binarySequence ∧
        (DomainL.NewBinarySequenceResult bs).Binaries = (bs, true) ∧
        (DomainL.NewBinarySequenceResult bs).Text = ([], false) ∧
        (DomainL.NewBinarySequenceResult bs).Decimals = ([], false)) := by
  intro t ds bs
  refine ⟨⟨rfl, ?_, ?_, ?_⟩, ⟨rfl, ?_, ?_, ?_⟩, ⟨rfl, ?_, ?_, ?_⟩⟩ <;>
    simp [DomainL.NewWhitespaceResult, DomainL.NewDecimalResult,
      DomainL.NewBinarySequenceResult, DomainL.Result.Text,
      DomainL.Result.Decimals, DomainL.Result.Binaries]

/-- C9: defensive copy — after constructing a sequence result from a
slice, handing a clone to the caller, and letting the caller mutate that
clone at an arbitrary index, a subsequent accessor call still returns the
sequence captured at construction time. -/
theorem c9_defensive_copy (α : Type) (h : HeapModel.Heap α) (input i : Nat) (x : α) :
    (let hr := HeapModel.newSeqResult h input
     let hq := HeapModel.seqAccessor hr.1 hr.2
     let hm := HeapModel.writeIndex hq.1 hq.2 i x
     let hq2 := HeapModel.seqAccessor hm hr.2
     HeapModel.readH hq2.1 hq2.2 = HeapModel.readH h input) := by
  dsimp only [HeapModel.newSeqResult, HeapModel.seqAccessor]
  rw [readH_allocCopy_self]
  rw [readH_allocCopy_self h (HeapModel.readH h input)]
  rw [readH_writeIndex_ne _ i x (by simp [HeapModel.allocCopy])]
  rw [readH_allocCopy_lt _ _ (by simp [HeapModel.allocCopy])]
  rw [readH_allocCopy_self]

/-- C10: the domain-layer `whitespaceDecoder` on `WhitespaceToDecimal`
fails with `InvalidPayload` exactly when the payload is empty or contains
a rune outside space/tab/LF, and otherwise returns one integer per rune
(space 32, tab 9, LF 10) in input order. -/
theorem c10_domain_whitespaceToDecimal (p : List Char) :
    (DomainL.decoderExecute .whitespaceToDecimal p = .error .invalidPayload ↔
      p = [] ∨ ∃ c ∈ p, ¬(c = ' ' ∨ c = '\t' ∨ c = '\n')) ∧
    (p ≠ [] → (∀ c ∈ p, c = ' ' ∨ c = '\t' ∨ c = '\n') →
      DomainL.decoderExecute .whitespaceToDecimal p =
        .ok (DomainL.NewDecimalResult
          (p.map fun c => (DomainL.charToDecimal? c).getD 0))) := by
  constructor
  · constructor
    · intro herr
      by_cases hp : p = []
      · exact Or.inl hp
      · right
        by_contra hno
        push_neg at hno
        have hok := mapE_charDecimalE_ok hno
        simp [DomainL.decoderExecute, DomainL.decodeWhitespaceToDecimal, hp, hok]
          at herr
    · intro hcases
      rcases hcases with rfl | ⟨c, hc, hbad⟩
      · rfl
      · have hp : p ≠ [] := by
          intro hnil
          subst hnil
          simp at hc
        have herr := mapE_charDecimalE_error ⟨c, hc, charToDecimalQ_eq_none.mpr hbad⟩
        simp [DomainL.decoderExecute, DomainL.decodeWhitespaceToDecimal, hp, herr]
  · intro hne hall
    have hok := mapE_charDecimalE_ok hall
    simp [DomainL.decoderExecute, DomainL.decodeWhitespaceToDecimal, hne, hok]

/-- Witness for C10 on the payload `" \t\n"`, both for the success branch
and for the failure characterization at the empty payload. -/
theorem c10_domain_whitespaceToDecimal_witness :
    DomainL.decoderExecute .whitespaceToDecimal [' ', '\t', '\n'] =
        .ok (DomainL.NewDecimalResult [32, 9, 10]) ∧
    DomainL.decoderExecute .whitespaceToDecimal [] = .error .invalidPayload := by
  constructor
  · exact ((c10_domain_whitespaceToDecimal [' ', '\t', '\n']).2
      (by decide) (by decide)).trans (by decide)
  · exact (c10_domain_whitespaceToDecimal []).1.mpr (Or.inl rfl)

end WsCodec
